import Mathlib

/-!
Verification development for the `pyboggle` repository
(`pyboggle/words.py` and `pyboggle/board.py`).

The development shallowly embeds the two source files:

* `words.py`: the `WordTree` class.  Its `tree` field is the directed graph
  produced by `networkx.generators.trees.prefix_tree`, whose documented shape
  is: a root node (label `0`, never a successor of any node), a `NIL` node
  (label `-1`, attribute `source = "NIL"`), one node per distinct word prefix
  (labels `>= 1`, attribute `source` = the letter), an edge from each node to
  the node of each one-letter extension occurring in the word list, and an
  edge from the last node of every inserted word to `NIL`.  We embed this
  graph as the inductive type `Trie`: a node carries the list of its
  letter-labelled children (distinct labels, first-occurrence order, exactly
  as `prefix_tree` merges them) and a Boolean `isWord` recording whether the
  node has an edge to `NIL`.  Node labels themselves are irrelevant to the
  program except through Python truthiness of `_search_path`'s result, which
  is modelled by `Trie.searchTruthy` below.  `out_degree` of a node is the
  number of letter children plus one for the `NIL` edge when present
  (`Trie.outDegree`).

* `board.py`: the `BoggleBoard` class.  Cells (the 16 `Dice` objects, which
  are pairwise distinct on every board drawn from either tile set because the
  16 face-tuples of a tile set are pairwise distinct and `Dice` is a frozen
  dataclass compared by its `faces` field) are embedded as `Fin 16`, row
  major.  A `Board` packages the data `_all_simple_paths_graph`, `solver`,
  `scorer`, `_is_valid_path` and `attempt_word` actually read: the node list
  of the adjacency graph, the adjacency lists, the face of every cell, and
  the word tree.  `board.py` calls the word tree as `search_path` and
  constructs it with a `filter` keyword; `words.py` defines `_search_path`
  and takes no `filter`.  The two files are overlapping drafts of the same
  interface; we embed the one `WordTree` implementation present in `src`
  (`words.py`) and use it for both spellings, ignoring the `filter` argument
  (it only restricts which dictionary file lines are loaded, which is I/O).

Python exceptions are embedded as `Except.error`; a normal `return None` is
`Option.none` (or `Except.ok none`).  `lru_cache` / `cache` decorations are
pure memoisation and are dropped.  Machine integers do not occur (all Python
ints here are small non-negative counters), so `Nat` is used throughout.
-/

namespace Pyboggle

/-- The prefix tree (`networkx.prefix_tree`) reachable-node structure, as
described in the module docstring: `isWord` records an edge to the `NIL`
node `-1`; `children` are the letter-labelled successors in first-occurrence
order, with pairwise distinct labels. -/
inductive Trie where
  | node : Bool → List (Char × Trie) → Trie
deriving Inhabited

/-- Whether the node has an edge to `NIL` (i.e. some inserted word ends here). -/
def Trie.isWord : Trie → Bool
  | .node b _ => b

/-- The letter-labelled children of the node. -/
def Trie.children : Trie → List (Char × Trie)
  | .node _ cs => cs

/-- `networkx.DiGraph.out_degree` of the node: its letter children plus the
`NIL` edge when present. -/
def Trie.outDegree (t : Trie) : Nat :=
  t.children.length + (if t.isWord then 1 else 0)

/-- `WordTree._search_path` (words.py lines 34-65): walk the trie from `node`,
consuming one element of `word` at a time; `None` when no child's `source`
matches the next letter, otherwise the node reached after the whole word.
The Python guard `if not next_node` can only fire on `None`: a matching child
is never the root `0` (the root has no in-edges) and never `NIL` (its
`source` is the three-letter string `"NIL"`, which no single character
equals), so it is exactly the `none` test.  We return the reached node's
subtree instead of its integer label. -/
def Trie.search_path : Trie → List Char → Option Trie
  | t, [] => some t
  | t, ch :: rest =>
    match t.children.find? (fun pr => pr.1 == ch) with
    | none => none
    | some pr => pr.2.search_path rest

/-- Python truthiness of `_search_path word`: `None` is falsy, and the label
of the reached node is `0` (falsy) exactly when `word` is empty (the walk
then returns the root, label `0`; a nonempty walk always ends at a child
node, whose `prefix_tree` label is at least `1`).  Used by
`_all_simple_paths_graph` line 161: `if self.word_tree.search_path(...):`. -/
def Trie.searchTruthy (t : Trie) (w : List Char) : Bool :=
  !w.isEmpty && (t.search_path w).isSome

/-- `WordTree.exists` (words.py lines 24-32): words shorter than 3 letters are
rejected before the walk; otherwise the walk must consume the word and the
reached node must have `out_degree` zero. -/
def Trie.exists_word (t : Trie) (w : List Char) : Bool :=
  if w.length < 3 then false
  else
    match t.search_path w with
    | none => false
    | some n => n.outDegree == 0

/-- Replace the child labelled `ch` (keeping its position), or append a new
one at the end — exactly how `networkx.prefix_tree` merges children by label
in first-occurrence order. -/
def setChild : List (Char × Trie) → Char → Trie → List (Char × Trie)
  | [], ch, nt => [(ch, nt)]
  | (c0, t0) :: cs, ch, nt =>
    if c0 == ch then (c0, nt) :: cs else (c0, t0) :: setChild cs ch nt

/-- Insertion of one word into the embedded prefix tree, following
`networkx.prefix_tree`'s grouping: an empty remaining path adds the `NIL`
edge; otherwise the word descends into the (unique) child labelled with its
first letter, creating it when absent. -/
def Trie.insert : Trie → List Char → Trie
  | t, [] => .node true t.children
  | t, ch :: rest =>
    let old :=
      match t.children.find? (fun pr => pr.1 == ch) with
      | some pr => pr.2
      | none => .node false []
    .node t.isWord (setChild t.children ch (old.insert rest))

/-- `prefix_tree(word_list)`: fold the (already stripped, nonblank) dictionary
lines into the empty tree.  File reading (`_file_lines_iterator`) is I/O and
is out of the embedding; the word list is taken as the list of its lines. -/
def buildTrie (ws : List (List Char)) : Trie :=
  ws.foldl Trie.insert (.node false [])

/-- The data of a constructed `BoggleBoard` that the solver, enumerator and
scorer read: `nodes` is the node list of `self.adjacency` (on a real board,
all 16 dice, which is also `itertools.chain(*self.dice)`), `adj c` the
adjacency list `self.adjacency[c]`, `face c` the resolved face string of the
die at cell `c` (as its character list; `"Qu"` has two), and `tree` the word
tree. -/
structure Board where
  nodes : List (Fin 16)
  adj : Fin 16 → List (Fin 16)
  face : Fin 16 → List Char
  tree : Trie

/-- `cutoff = len(self.adjacency) - 1` (board.py line 141). -/
def Board.cutoff (b : Board) : Nat := b.nodes.length - 1

/-- `"".join(dice.face for dice in cells)`. -/
def Board.word (b : Board) (cells : List (Fin 16)) : List Char :=
  (cells.map b.face).flatten

/-- The state of `_all_simple_paths_graph`'s loop: one frame per entry of the
ordered dict `visited` (Python guarantees `len(stack) == len(visited)` at
every loop head), the head of the list being the most recently visited cell.
A frame carries the cell and the not-yet-consumed part of the iterator
`iter(self.adjacency[cell])` pushed with it. -/
abbrev GenState := List (Fin 16 × List (Fin 16))

/-- `list(visited)`: the current partial path, source first. -/
def visitedCells (s : GenState) : List (Fin 16) :=
  (s.map Prod.fst).reverse

/-- One iteration of the `while stack:` loop of `_all_simple_paths_graph`
(board.py lines 144-174), returning the words yielded during the iteration
and the state at the next loop head.  Branches, in source order:
line 146-151 the early-exit prefix check (pop both stacks); line 153-156
exhausted iterator (pop); lines 157-167 the `len(visited) < cutoff` branch:
skip a visited child, yield `visited + [child]` when the child is the target
and the extended word is truthy in the tree, then mark the child visited and
either push its neighbour iterator (target still unvisited) or pop it back
(line 167); lines 168-174 the cutoff branch: yield `visited + [target]` when
the target is among the current child or the remaining iterator and is
unvisited, then pop. -/
def genStep (b : Board) (target : Fin 16) : GenState → List (List (Fin 16)) × GenState
  | [] => ([], [])
  | (_, []) :: rest =>
    -- whether the early-exit check fires (lines 146-151) or the exhausted
    -- iterator returns `None` (lines 153-156), the iteration pops both
    -- stacks and yields nothing
    ([], rest)
  | (c, child :: rem2) :: rest =>
    let rem := child :: rem2
    let w := b.word (visitedCells ((c, rem) :: rest))
    if w ≠ [] ∧ (b.tree.search_path w).isNone = true then
      ([], rest)
    else
        if ((c, rem) :: rest : GenState).length < b.cutoff then
          if child ∈ visitedCells ((c, rem) :: rest) then
            ([], (c, rem2) :: rest)
          else
            let ys :=
              if child = target ∧ b.tree.searchTruthy (w ++ b.face child) = true then
                [visitedCells ((c, rem) :: rest) ++ [child]]
              else []
            if target ∉ visitedCells ((c, rem) :: rest) ∧ target ≠ child then
              (ys, (child, b.adj child) :: (c, rem2) :: rest)
            else
              (ys, (c, rem2) :: rest)
        else
          let ys :=
            if target ∈ child :: rem2 ∧ target ∉ visitedCells ((c, rem) :: rest) then
              [visitedCells ((c, rem) :: rest) ++ [target]]
            else []
          (ys, rest)

/-- Run the loop for at most `fuel` iterations; the Boolean records whether
the stack emptied (the generator was exhausted).  Extra fuel after exhaustion
changes nothing. -/
def runGen (b : Board) (target : Fin 16) : Nat → GenState → List (List (Fin 16)) × Bool
  | _, [] => ([], true)
  | 0, _ => ([], false)
  | fuel + 1, s =>
    let step := genStep b target s
    let later := runGen b target fuel step.2
    (step.1 ++ later.1, later.2)

/-- The state at the first loop head:
`visited = dict.fromkeys([source])`, `stack = [iter(self.adjacency[source])]`
(board.py lines 142-143). -/
def initState (b : Board) (source : Fin 16) : GenState :=
  [(source, b.adj source)]

/-- All paths yielded by `self._all_simple_paths_graph(source, target)` within
`fuel` loop iterations.  The generator is finite (see the termination claim),
so for large enough fuel this is the whole yielded sequence. -/
def pathsYielded (b : Board) (source target : Fin 16) (fuel : Nat) : List (List (Fin 16)) :=
  (runGen b target fuel (initState b source)).1

/-- `itertools.combinations(dice, 2)`: all unordered pairs, in order. -/
def combinations2 : List (Fin 16) → List (Fin 16 × Fin 16)
  | [] => []
  | x :: xs => xs.map (fun y => (x, y)) ++ combinations2 xs

/-- The inner loop of `solver` (board.py lines 209-214): for every yielded
path, if it is nonempty (`if path:`) and its word passes `word_tree.exists`,
add the word to the set (modelled as append-if-absent on a duplicate-free
list). -/
def addWords (b : Board) : List (List (Fin 16)) → List (List Char) → List (List Char)
  | [], acc => acc
  | p :: ps, acc =>
    addWords b ps
      (if p ≠ [] ∧ b.tree.exists_word (b.word p) = true ∧ b.word p ∉ acc then
        acc ++ [b.word p]
      else acc)

/-- `BoggleBoard.solver` (board.py lines 195-217): over every unordered pair
of dice, chain the paths of both enumeration directions and collect the words
accepted by `word_tree.exists`.  The two `print` calls are I/O and dropped.
`fuel` bounds each generator run; the runs are finite (claim C8), so large
enough fuel gives the full solver output. -/
def Board.solver (b : Board) (fuel : Nat) : List (List Char) :=
  (combinations2 b.nodes).foldl
    (fun acc pr =>
      addWords b (pathsYielded b pr.1 pr.2 fuel ++ pathsYielded b pr.2 pr.1 fuel) acc)
    []

/-- The `scoring` dict of `BoggleBoard.scorer` (board.py lines 225-232);
`none` models a `KeyError` lookup miss. -/
def scoring : Nat → Option Nat
  | 3 => some 1
  | 4 => some 1
  | 5 => some 2
  | 6 => some 3
  | 7 => some 5
  | 8 => some 11
  | _ => none

/-- The accumulation loop of `scorer` (board.py lines 233-237): for each word,
`assert len(word) >= 3` (an `AssertionError` is `Except.error`), clamp the
length to 8, and add the table entry. -/
def scorerAux (total : Nat) : List (List Char) → Except String Nat
  | [] => .ok total
  | w :: ws =>
    if w.length < 3 then .error "Words must be at least 3 letters."
    else
      match scoring (min 8 w.length) with
      | none => .error "KeyError"
      | some p => scorerAux (total + p) ws

/-- `BoggleBoard.scorer` on a set of words (board.py lines 219-238).  A
Python `set` cannot hold duplicates; the embedding takes the words as a list
(its iteration order; the result does not depend on it). -/
def scorer (words : List (List Char)) : Except String Nat :=
  scorerAux 0 words

/-- The table entry a single valid word contributes:
`scoring[min(8, len(word))]`. -/
def wordScore (w : List Char) : Nat :=
  (scoring (min 8 w.length)).getD 0

/-- Consecutive adjacency (`all(v in G[u] ...)`), as a Boolean recursion. -/
def chainAdj (b : Board) : List (Fin 16) → Bool
  | [] => true
  | [_] => true
  | x :: y :: rest => decide (y ∈ b.adj x) && chainAdj b (y :: rest)

/-- `networkx.is_simple_path` applied as in `_is_valid_path`: an empty node
list is not a path; a single node is a path when it is in the graph; a longer
list must have no repeats and consecutive nodes adjacent. -/
def isSimplePathNx (b : Board) : List (Fin 16) → Bool
  | [] => false
  | [c] => decide (c ∈ b.nodes)
  | p => decide p.Nodup && chainAdj b p

/-- `itertools.product(*lists)`. -/
def listProd : List (List (Fin 16)) → List (List (Fin 16))
  | [] => [[]]
  | l :: ls => l.flatMap (fun x => (listProd ls).map (fun r => x :: r))

/-- `BoggleBoard._is_valid_path` (board.py lines 176-193): for each character
of the word, the dice whose (whole) face equals that character; then whether
any choice tuple is a simple path of the adjacency graph.  A die with the
two-character face `"Qu"` never equals a single character, exactly as in the
source (`dice.face == char`). -/
def Board.is_valid_path (b : Board) (word : List Char) : Bool :=
  let matching := word.map (fun ch => b.nodes.filter (fun d => b.face d == [ch]))
  (listProd matching).any (fun p => isSimplePathNx b p)

/-- `BoggleBoard.attempt_word` (board.py lines 240-243): when the word is a
valid path and exists in the word tree, return `scorer(word)` (whose
`AssertionError`, were it to fire, would propagate); otherwise fall through
and return `None`. -/
def Board.attempt_word (b : Board) (word : List Char) : Except String (Option Nat) :=
  if b.is_valid_path word = true ∧ b.tree.exists_word word = true then
    match scorer [word] with
    | .ok n => .ok (some n)
    | .error e => .error e
  else
    .ok none

/-- `CLASSIC_TILES` (board.py lines 12-29). -/
def CLASSIC_TILES : List (List String) :=
  [["A", "A", "C", "I", "O", "T"],
   ["A", "B", "I", "L", "T", "Y"],
   ["A", "B", "J", "M", "O", "Qu"],
   ["A", "C", "D", "E", "M", "P"],
   ["A", "C", "E", "L", "R", "S"],
   ["A", "D", "E", "N", "V", "Z"],
   ["A", "H", "M", "O", "R", "S"],
   ["B", "I", "F", "O", "R", "X"],
   ["D", "E", "N", "O", "S", "W"],
   ["D", "K", "N", "O", "T", "U"],
   ["E", "E", "F", "H", "I", "Y"],
   ["E", "G", "K", "L", "U", "Y"],
   ["E", "G", "I", "N", "T", "V"],
   ["E", "H", "I", "N", "P", "S"],
   ["E", "L", "P", "S", "T", "U"],
   ["G", "I", "L", "R", "U", "W"]]

/-- `NEW_TILES` (board.py lines 30-47). -/
def NEW_TILES : List (List String) :=
  [["A", "A", "E", "E", "G", "N"],
   ["A", "B", "B", "J", "O", "O"],
   ["A", "C", "H", "O", "P", "S"],
   ["A", "F", "F", "K", "P", "S"],
   ["A", "O", "O", "T", "T", "W"],
   ["C", "I", "M", "O", "T", "U"],
   ["D", "E", "I", "L", "R", "X"],
   ["D", "E", "L", "R", "V", "Y"],
   ["D", "I", "S", "T", "T", "Y"],
   ["E", "E", "G", "H", "N", "W"],
   ["E", "E", "I", "N", "S", "U"],
   ["E", "H", "R", "T", "V", "W"],
   ["E", "I", "O", "S", "S", "T"],
   ["E", "L", "R", "T", "T", "Y"],
   ["H", "I", "M", "N", "U", "Qu"],
   ["H", "L", "N", "N", "R", "Z"]]

/-- The tile-set selection at the head of `BoggleBoard.__init__` (board.py
lines 71-77): `"classic"` and `"new"` choose a tile set, anything else raises
`ValueError(f"Invalid tile set {tiles}.")`.  Dice creation, the adjacency
graph and the word tree are only built after this point (lines 78-81), so on
the error branch no board state is produced — here, no value of type
`List (List String)` (and hence no downstream `Board`) exists. -/
def boggleBoardInit (tiles : String) : Except String (List (List String)) :=
  if tiles = "classic" then .ok CLASSIC_TILES
  else if tiles = "new" then .ok NEW_TILES
  else .error ("Invalid tile set " ++ tiles ++ ".")

/-- Column of a cell in the 4x4 grid (row-major `Fin 16`). -/
def posx (p : Fin 16) : Nat := p.val % 4

/-- Row of a cell in the 4x4 grid. -/
def posy (p : Fin 16) : Nat := p.val / 4

/-- The neighbourhood test of `_create_adjacency_graph` (board.py lines
100-123): the 3x3 offset pattern around each cell, dropping out-of-bounds
offsets and the cell itself, is exactly "distinct cells at Chebyshev distance
at most 1". -/
def chebAdj (p q : Fin 16) : Bool :=
  decide (q ≠ p ∧ posx p - posx q ≤ 1 ∧ posx q - posx p ≤ 1 ∧
          posy p - posy q ≤ 1 ∧ posy q - posy p ≤ 1)

/-- The adjacency lists of the real 4x4 board's graph. -/
def adj4 : Fin 16 → List (Fin 16) :=
  fun p => (List.finRange 16).filter (chebAdj p)

/-- A face assignment as the row-major list of (single-character) faces. -/
def facesOf (l : List Char) : Fin 16 → List Char :=
  fun p => [l.getD p.val 'A']

/-- Row-major faces `C A T D / E N H F / W K J Y / G P L R`: 16 pairwise
distinct letters, drawable from `CLASSIC_TILES` (tiles 0,1,9,3,4,5,6,7,8,11,
2,10,12,13,14,15 in that order, one face each). -/
def facesCAT : List Char :=
  ['C', 'A', 'T', 'D', 'E', 'N', 'H', 'F', 'W', 'K', 'J', 'Y', 'G', 'P', 'L', 'R']

/-- The dictionary used by `boardCATS`. -/
def wordsCATS : List (List Char) := ["CATS".toList]

/-- A real-shaped board (16 cells, the 4x4 adjacency graph) whose faces spell
`C-A-T` across the top row and whose dictionary is the single word `CATS`. -/
def boardCATS : Board :=
  { nodes := List.finRange 16, adj := adj4, face := facesOf facesCAT,
    tree := buildTrie wordsCATS }

/-- The dictionary used by `boardCAT`. -/
def wordsCAT : List (List Char) := ["CAT".toList]

/-- The same board with dictionary `{"CAT"}`. -/
def boardCAT : Board :=
  { nodes := List.finRange 16, adj := adj4, face := facesOf facesCAT,
    tree := buildTrie wordsCAT }

/-- Row-major faces `C B J D / R Z H X / W K F U / G P E I`, drawable from
`CLASSIC_TILES` (tile `i` at cell `i`, one face each).  The boustrophedon
path `0,1,2,3,7,6,5,4,8,9,10,11,15,14,13` spells `CBJDXHZRWKFUIEP` and visits
15 cells; the only remaining cell, 12 (face `G`), is adjacent to its last
cell 13. -/
def facesSnake : List Char :=
  ['C', 'B', 'J', 'D', 'R', 'Z', 'H', 'X', 'W', 'K', 'F', 'U', 'G', 'P', 'E', 'I']

/-- The 15-letter dictionary word of `boardSnake`. -/
def wordsSnake : List (List Char) := ["CBJDXHZRWKFUIEP".toList]

/-- A real-shaped board whose single 15-letter dictionary word forces the
enumeration to a partial path of the cutoff length 15. -/
def boardSnake : Board :=
  { nodes := List.finRange 16, adj := adj4, face := facesOf facesSnake,
    tree := buildTrie wordsSnake }

/-- The full-length path the cutoff branch yields on `boardSnake`. -/
def snakePath : List (Fin 16) :=
  [0, 1, 2, 3, 7, 6, 5, 4, 8, 9, 10, 11, 15, 14, 13, 12]

/-- A hand-built word tree in which the node of `CAT` is a leaf (out-degree
zero).  `prefix_tree` never produces such a node for an inserted word (the
terminal node always carries its `NIL` edge), but `WordTree.exists` only
answers `true` on leaves, so exercising the solver's accepting branch needs
this tree. -/
def trieCATLeaf : Trie :=
  .node false
    [('C', .node false [('A', .node false [('T', .node false [])])])]

/-- A board over the cells `0, 1, 2` (nodes of its graph) whose word tree is
`trieCATLeaf`; its solver accepts `CAT`. -/
def boardLeaf : Board :=
  { nodes := [0, 1, 2], adj := adj4, face := facesOf facesCAT,
    tree := trieCATLeaf }

/-! ### Helper lemmas about the word tree -/

/-- Walking an appended word walks the first part and continues from its
result. -/
lemma search_path_append (t : Trie) (u v : List Char) :
    t.search_path (u ++ v) = (t.search_path u).bind (fun t2 => t2.search_path v) := by
  induction u generalizing t with
  | nil => simp [Trie.search_path]
  | cons ch rest ih =>
    simp only [List.cons_append, Trie.search_path]
    cases t.children.find? (fun pr => pr.1 == ch) with
    | none => simp
    | some pr => simp [ih]

/-- A valid trie walk stays valid on every shorter word: prefix closure. -/
lemma search_path_isSome_of_append {t : Trie} {u v : List Char}
    (h : (t.search_path (u ++ v)).isSome = true) :
    (t.search_path u).isSome = true := by
  rw [search_path_append] at h
  cases hu : t.search_path u with
  | none => rw [hu] at h; simp at h
  | some t2 => simp

/-! ### Helper lemmas about board words and the traversal state -/

/-- The word of concatenated cell lists. -/
lemma word_append (b : Board) (l1 l2 : List (Fin 16)) :
    b.word (l1 ++ l2) = b.word l1 ++ b.word l2 := by
  simp [Board.word]

/-- With nonempty faces, a nonempty cell list spells a nonempty word. -/
lemma word_ne_nil (b : Board) (hface : ∀ c, b.face c ≠ []) {cells : List (Fin 16)}
    (h : cells ≠ []) : b.word cells ≠ [] := by
  cases cells with
  | nil => exact absurd rfl h
  | cons c rest =>
    have : b.word (c :: rest) = b.face c ++ b.word rest := by
      simp [Board.word]
    rw [this]
    intro hcontra
    exact hface c (List.append_eq_nil.mp hcontra).1

/-- Pushing a frame appends its cell to the visited path. -/
lemma visitedCells_cons (c : Fin 16) (rem : List (Fin 16)) (rest : GenState) :
    visitedCells ((c, rem) :: rest) = visitedCells rest ++ [c] := by
  simp [visitedCells]

/-- The visited path and the stack have the same length. -/
lemma length_visitedCells (s : GenState) : (visitedCells s).length = s.length := by
  simp [visitedCells]

/-! ### The loop invariant of `_all_simple_paths_graph` -/

/-- Invariant of the traversal state: the visited cells are pairwise distinct
(they are the keys of the dict `visited`), consecutive visited cells are
adjacent, and every frame's remaining iterator holds only neighbours of its
cell. -/
def GoodState (b : Board) (s : GenState) : Prop :=
  (s.map Prod.fst).Nodup ∧
  List.Chain' (fun a c => c ∈ b.adj a) (visitedCells s) ∧
  ∀ pr ∈ s, ∀ x ∈ pr.2, x ∈ b.adj pr.1

/-- The initial state satisfies the invariant. -/
lemma goodState_init (b : Board) (source : Fin 16) :
    GoodState b (initState b source) := by
  refine ⟨by simp [initState], by simp [initState, visitedCells], ?_⟩
  intro pr hpr x hx
  simp only [initState, List.mem_singleton] at hpr
  subst hpr
  exact hx

/-- Popping the top frame preserves the invariant. -/
lemma goodState_tail (b : Board) {f : Fin 16 × List (Fin 16)} {rest : GenState}
    (hg : GoodState b (f :: rest)) : GoodState b rest := by
  obtain ⟨hnd, hch, hfr⟩ := hg
  refine ⟨(List.nodup_cons.mp (by simpa using hnd)).2, ?_, ?_⟩
  · have h1 : visitedCells (f :: rest) = visitedCells rest ++ [f.1] := by
      simp [visitedCells]
    rw [h1] at hch
    exact (List.chain'_append.mp hch).1
  · intro pr hpr
    exact hfr pr (List.mem_cons_of_mem _ hpr)

/-- Consuming the next element of the top frame's iterator preserves the
invariant. -/
lemma goodState_advance (b : Board) {c child : Fin 16} {rem2 : List (Fin 16)}
    {rest : GenState} (hg : GoodState b ((c, child :: rem2) :: rest)) :
    GoodState b ((c, rem2) :: rest) := by
  obtain ⟨hnd, hch, hfr⟩ := hg
  refine ⟨by simpa using hnd, ?_, ?_⟩
  · have h1 : visitedCells ((c, rem2) :: rest) =
        visitedCells ((c, child :: rem2) :: rest) := by
      simp [visitedCells]
    rw [h1]
    exact hch
  · intro pr hpr x hx
    rcases List.mem_cons.mp hpr with h | h
    · subst h
      exact hfr (c, child :: rem2) (List.mem_cons_self _ _) x
        (List.mem_cons_of_mem _ hx)
    · exact hfr pr (List.mem_cons_of_mem _ h) x hx

/-- Pushing an unvisited child and its fresh neighbour iterator preserves the
invariant. -/
lemma goodState_push (b : Board) {c child : Fin 16} {rem2 : List (Fin 16)}
    {rest : GenState} (hg : GoodState b ((c, child :: rem2) :: rest))
    (hchild : child ∉ visitedCells ((c, child :: rem2) :: rest)) :
    GoodState b ((child, b.adj child) :: (c, rem2) :: rest) := by
  obtain ⟨hnd, hch, hfr⟩ := hg
  have hchild2 : child ∉ (((c, child :: rem2) :: rest : GenState).map Prod.fst) := by
    intro hmem
    apply hchild
    simp only [visitedCells, List.mem_reverse]
    exact hmem
  have hadj : child ∈ b.adj c :=
    hfr (c, child :: rem2) (List.mem_cons_self _ _) child (List.mem_cons_self _ _)
  refine ⟨?_, ?_, ?_⟩
  · refine List.nodup_cons.mpr ⟨?_, by simpa using hnd⟩
    simpa using hchild2
  · have h1 : visitedCells ((child, b.adj child) :: (c, rem2) :: rest) =
        visitedCells ((c, child :: rem2) :: rest) ++ [child] := by
      simp [visitedCells]
    rw [h1]
    refine List.chain'_append.mpr ⟨hch, List.chain'_singleton _, ?_⟩
    intro x hx y hy
    have h2 : visitedCells ((c, child :: rem2) :: rest) =
        visitedCells rest ++ [c] := by simp [visitedCells]
    rw [h2, List.getLast?_concat] at hx
    simp only [List.head?_cons, Option.mem_def, Option.some.injEq] at hx hy
    subst hx; subst hy
    exact hadj
  · intro pr hpr x hx
    rcases List.mem_cons.mp hpr with h | h
    · subst h
      exact hx
    · rcases List.mem_cons.mp h with h2 | h2
      · subst h2
        exact hfr (c, child :: rem2) (List.mem_cons_self _ _) x
          (List.mem_cons_of_mem _ hx)
      · exact hfr pr (List.mem_cons_of_mem _ h2) x hx

/-- Exhaustive description of one loop iteration: the next state is a pop, an
iterator advance, or a push, and every path yielded during the iteration
extends the visited path by one unvisited cell from the top iterator — the
target — with the word facts of the branch that yielded it. -/
lemma genStep_shape (b : Board) (t c : Fin 16) (rem : List (Fin 16))
    (rest : GenState) :
    ((genStep b t ((c, rem) :: rest)).2 = rest ∨
     (∃ child rem2, rem = child :: rem2 ∧
        (genStep b t ((c, rem) :: rest)).2 = (c, rem2) :: rest ∧
        ((c, rem) :: rest : GenState).length < b.cutoff) ∨
     (∃ child rem2, rem = child :: rem2 ∧
        child ∉ visitedCells ((c, rem) :: rest) ∧
        ((c, rem) :: rest : GenState).length < b.cutoff ∧
        (genStep b t ((c, rem) :: rest)).2 =
          (child, b.adj child) :: (c, rem2) :: rest)) ∧
    (∀ p ∈ (genStep b t ((c, rem) :: rest)).1, ∃ x,
       p = visitedCells ((c, rem) :: rest) ++ [x] ∧ x = t ∧
       x ∉ visitedCells ((c, rem) :: rest) ∧ x ∈ rem ∧
       ((((c, rem) :: rest : GenState).length < b.cutoff ∧
         b.tree.searchTruthy
           (b.word (visitedCells ((c, rem) :: rest)) ++ b.face x) = true) ∨
        (b.cutoff ≤ ((c, rem) :: rest : GenState).length ∧
         (b.word (visitedCells ((c, rem) :: rest)) = [] ∨
          (b.tree.search_path
            (b.word (visitedCells ((c, rem) :: rest)))).isSome = true)))) := by
  cases rem with
  | nil =>
    refine ⟨Or.inl ?_, ?_⟩
    · simp [genStep]
    · intro p hp
      simp [genStep] at hp
  | cons child rem2 =>
    simp only [genStep]
    by_cases h1 : b.word (visitedCells ((c, child :: rem2) :: rest)) ≠ [] ∧
        (b.tree.search_path
          (b.word (visitedCells ((c, child :: rem2) :: rest)))).isNone = true
    · rw [if_pos h1]
      exact ⟨Or.inl rfl, by intro p hp; simp at hp⟩
    · rw [if_neg h1]
      have hw : b.word (visitedCells ((c, child :: rem2) :: rest)) = [] ∨
          (b.tree.search_path
            (b.word (visitedCells ((c, child :: rem2) :: rest)))).isSome = true := by
        by_cases hnil : b.word (visitedCells ((c, child :: rem2) :: rest)) = []
        · exact Or.inl hnil
        · refine Or.inr ?_
          cases hsp : b.tree.search_path
              (b.word (visitedCells ((c, child :: rem2) :: rest))) with
          | none => exact absurd ⟨hnil, by simp [hsp]⟩ h1
          | some t2 => simp
      by_cases h2 : ((c, child :: rem2) :: rest : GenState).length < b.cutoff
      · rw [if_pos h2]
        by_cases h3 : child ∈ visitedCells ((c, child :: rem2) :: rest)
        · rw [if_pos h3]
          exact ⟨Or.inr (Or.inl ⟨child, rem2, rfl, rfl, h2⟩),
            by intro p hp; simp at hp⟩
        · rw [if_neg h3]
          have hyield : ∀ p ∈ (if child = t ∧ b.tree.searchTruthy
                (b.word (visitedCells ((c, child :: rem2) :: rest)) ++
                  b.face child) = true then
                [visitedCells ((c, child :: rem2) :: rest) ++ [child]]
              else ([] : List (List (Fin 16)))), ∃ x,
              p = visitedCells ((c, child :: rem2) :: rest) ++ [x] ∧ x = t ∧
              x ∉ visitedCells ((c, child :: rem2) :: rest) ∧
              x ∈ child :: rem2 ∧
              ((((c, child :: rem2) :: rest : GenState).length < b.cutoff ∧
                b.tree.searchTruthy
                  (b.word (visitedCells ((c, child :: rem2) :: rest)) ++
                    b.face x) = true) ∨
               (b.cutoff ≤ ((c, child :: rem2) :: rest : GenState).length ∧
                (b.word (visitedCells ((c, child :: rem2) :: rest)) = [] ∨
                 (b.tree.search_path
                   (b.word (visitedCells
                     ((c, child :: rem2) :: rest)))).isSome = true))) := by
            intro p hp
            by_cases h5 : child = t ∧ b.tree.searchTruthy
                (b.word (visitedCells ((c, child :: rem2) :: rest)) ++
                  b.face child) = true
            · rw [if_pos h5] at hp
              simp only [List.mem_singleton] at hp
              subst hp
              exact ⟨child, rfl, h5.1, h3, List.mem_cons_self _ _,
                Or.inl ⟨h2, h5.2⟩⟩
            · rw [if_neg h5] at hp
              simp at hp
          by_cases h4 : t ∉ visitedCells ((c, child :: rem2) :: rest) ∧ t ≠ child
          · rw [if_pos h4]
            exact ⟨Or.inr (Or.inr ⟨child, rem2, rfl, h3, h2, rfl⟩), hyield⟩
          · rw [if_neg h4]
            exact ⟨Or.inr (Or.inl ⟨child, rem2, rfl, rfl, h2⟩), hyield⟩
      · rw [if_neg h2]
        refine ⟨Or.inl rfl, ?_⟩
        intro p hp
        by_cases h5 : t ∈ child :: rem2 ∧
            t ∉ visitedCells ((c, child :: rem2) :: rest)
        · rw [if_pos h5] at hp
          simp only [List.mem_singleton] at hp
          subst hp
          exact ⟨t, rfl, rfl, h5.2, h5.1, Or.inr ⟨Nat.le_of_not_lt h2, hw⟩⟩
        · rw [if_neg h5] at hp
          simp at hp

/-- One loop iteration preserves the invariant. -/
lemma genStep_good (b : Board) (t : Fin 16) :
    ∀ {s : GenState}, GoodState b s → GoodState b (genStep b t s).2
  | [], _ => by
    refine ⟨by simp [genStep], by simp [genStep, visitedCells], ?_⟩
    intro pr hpr
    simp [genStep] at hpr
  | (c, rem) :: rest, hg => by
    obtain ⟨hshape, -⟩ := genStep_shape b t c rem rest
    rcases hshape with h | ⟨child, rem2, hrem, heq, -⟩ |
        ⟨child, rem2, hrem, hnv, -, heq⟩
    · rw [h]
      exact goodState_tail b hg
    · rw [heq]
      subst hrem
      exact goodState_advance b hg
    · rw [heq]
      subst hrem
      exact goodState_push b hg hnv

/-- What one iteration's yields look like from a state satisfying the
invariant: a nonempty simple path of adjacent cells, one cell longer than the
visited path, whose word data depend on the branch that yielded it. -/
lemma genStep_yield_facts (b : Board) (t : Fin 16) {c : Fin 16}
    {rem : List (Fin 16)} {rest : GenState} {p : List (Fin 16)}
    (hg : GoodState b ((c, rem) :: rest))
    (hp : p ∈ (genStep b t ((c, rem) :: rest)).1) :
    (p ≠ [] ∧ p.Nodup ∧ List.Chain' (fun a d => d ∈ b.adj a) p) ∧
    ((∀ cl, b.face cl ≠ []) →
      (b.tree.search_path (b.word (p.take b.cutoff))).isSome = true ∧
      (p.length ≤ b.cutoff → (b.tree.search_path (b.word p)).isSome = true)) := by
  obtain ⟨hnd, hch, hfr⟩ := hg
  obtain ⟨-, hyld⟩ := genStep_shape b t c rem rest
  obtain ⟨x, hpx, -, hxnv, hxrem, hcase⟩ := hyld p hp
  have hvnd : (visitedCells ((c, rem) :: rest)).Nodup := by
    simp only [visitedCells]
    exact List.nodup_reverse.mpr hnd
  have hxadj : x ∈ b.adj c := hfr (c, rem) (List.mem_cons_self _ _) x hxrem
  have hlast : (visitedCells ((c, rem) :: rest)).getLast? = some c := by
    rw [visitedCells_cons, List.getLast?_concat]
  have hplen : p.length = ((c, rem) :: rest : GenState).length + 1 := by
    rw [hpx, List.length_append, length_visitedCells]
    rfl
  constructor
  · refine ⟨by rw [hpx]; simp, ?_, ?_⟩
    · rw [hpx]
      refine List.nodup_append.mpr ⟨hvnd, List.nodup_singleton _, ?_⟩
      intro a ha ha2
      rw [List.mem_singleton] at ha2
      subst ha2
      exact hxnv ha
    · rw [hpx]
      refine List.chain'_append.mpr ⟨hch, List.chain'_singleton _, ?_⟩
      intro u hu v hv
      rw [hlast] at hu
      simp only [List.head?_cons, Option.mem_def, Option.some.injEq] at hu hv
      subst hu; subst hv
      exact hxadj
  · intro hface
    have hwordp : b.word p = b.word (visitedCells ((c, rem) :: rest)) ++ b.face x := by
      rw [hpx, word_append]
      simp [Board.word]
    rcases hcase with ⟨hlt, hst⟩ | ⟨hge, hw⟩
    · -- yielded at line 161-162: the whole extended word passed `search_path`
      have hsome : (b.tree.search_path (b.word p)).isSome = true := by
        rw [hwordp]
        have := (Bool.and_eq_true _ _).mp hst
        exact this.2
      have hple : p.length ≤ b.cutoff := by
        rw [hplen]
        omega
      have htake : p.take b.cutoff = p := List.take_of_length_le hple
      exact ⟨by rw [htake]; exact hsome, fun _ => hsome⟩
    · -- yielded by the cutoff branch: only the visited part was checked
      have hvne : visitedCells ((c, rem) :: rest) ≠ [] := by
        rw [visitedCells_cons]
        simp
      have hwv : (b.tree.search_path
          (b.word (visitedCells ((c, rem) :: rest)))).isSome = true := by
        rcases hw with hnil | hsome
        · exact absurd hnil (word_ne_nil b hface hvne)
        · exact hsome
      have hcle : b.cutoff ≤ (visitedCells ((c, rem) :: rest)).length := by
        rw [length_visitedCells]
        exact hge
      have htake : p.take b.cutoff =
          (visitedCells ((c, rem) :: rest)).take b.cutoff := by
        rw [hpx, List.take_append_of_le_length hcle]
      constructor
      · rw [htake]
        have hsplit : (visitedCells ((c, rem) :: rest)).take b.cutoff ++
            (visitedCells ((c, rem) :: rest)).drop b.cutoff =
            visitedCells ((c, rem) :: rest) := List.take_append_drop _ _
        have : (b.tree.search_path
            (b.word ((visitedCells ((c, rem) :: rest)).take b.cutoff ++
              (visitedCells ((c, rem) :: rest)).drop b.cutoff))).isSome = true := by
          rw [hsplit]
          exact hwv
        rw [word_append] at this
        exact search_path_isSome_of_append this
      · intro habs
        rw [hplen] at habs
        omega

/-- Every path yielded in a bounded run from a good state is a nonempty
simple path of adjacent cells; with nonempty faces, the word of its first
`cutoff` cells is a valid trie walk, and its full word is when the path is
no longer than the cutoff. -/
lemma runGen_yield_facts (b : Board) (t : Fin 16) :
    ∀ (n : Nat) (s : GenState), GoodState b s →
    ∀ p ∈ (runGen b t n s).1,
      (p ≠ [] ∧ p.Nodup ∧ List.Chain' (fun a d => d ∈ b.adj a) p) ∧
      ((∀ cl, b.face cl ≠ []) →
        (b.tree.search_path (b.word (p.take b.cutoff))).isSome = true ∧
        (p.length ≤ b.cutoff → (b.tree.search_path (b.word p)).isSome = true))
  | 0, s, _, p, hp => by
    cases s with
    | nil => simp [runGen] at hp
    | cons f rest => simp [runGen] at hp
  | n + 1, s, hg, p, hp => by
    cases s with
    | nil => simp [runGen] at hp
    | cons f rest =>
      obtain ⟨c, rem⟩ := f
      have hstep : runGen b t (n + 1) ((c, rem) :: rest) =
          ((genStep b t ((c, rem) :: rest)).1 ++
            (runGen b t n (genStep b t ((c, rem) :: rest)).2).1,
           (runGen b t n (genStep b t ((c, rem) :: rest)).2).2) := rfl
      rw [hstep] at hp
      rcases List.mem_append.mp hp with h | h
      · exact genStep_yield_facts b t hg h
      · exact runGen_yield_facts b t n _ (genStep_good b t hg) p h

/-! ### Solver membership -/

/-- Every word in the accumulator after `addWords` was already there or came
from a nonempty yielded path accepted by `exists`. -/
lemma addWords_mem (b : Board) :
    ∀ (ps : List (List (Fin 16))) (acc : List (List Char)) (w : List Char),
      w ∈ addWords b ps acc →
      w ∈ acc ∨ ∃ p ∈ ps, p ≠ [] ∧ b.tree.exists_word (b.word p) = true ∧
        b.word p = w
  | [], _, _, h => Or.inl h
  | p :: ps, acc, w, h => by
    have h0 : addWords b (p :: ps) acc = addWords b ps
        (if p ≠ [] ∧ b.tree.exists_word (b.word p) = true ∧ b.word p ∉ acc then
          acc ++ [b.word p]
        else acc) := rfl
    rw [h0] at h
    rcases addWords_mem b ps _ w h with h2 | ⟨q, hq, hfacts⟩
    · by_cases hc : p ≠ [] ∧ b.tree.exists_word (b.word p) = true ∧ b.word p ∉ acc
      · rw [if_pos hc] at h2
        rcases List.mem_append.mp h2 with h3 | h3
        · exact Or.inl h3
        · rw [List.mem_singleton] at h3
          exact Or.inr ⟨p, List.mem_cons_self _ _, hc.1, hc.2.1, h3.symm⟩
      · rw [if_neg hc] at h2
        exact Or.inl h2
    · exact Or.inr ⟨q, List.mem_cons_of_mem _ hq, hfacts⟩

/-- Every word the solver's pair loop accumulates comes from a nonempty path
yielded in one of the two directions of some pair and accepted by `exists`. -/
lemma solver_foldl_mem (b : Board) (fuel : Nat) :
    ∀ (prs : List (Fin 16 × Fin 16)) (acc : List (List Char)) (w : List Char),
      w ∈ prs.foldl
        (fun acc pr =>
          addWords b (pathsYielded b pr.1 pr.2 fuel ++
            pathsYielded b pr.2 pr.1 fuel) acc) acc →
      w ∈ acc ∨ ∃ pr ∈ prs, ∃ p,
        (p ∈ pathsYielded b pr.1 pr.2 fuel ∨ p ∈ pathsYielded b pr.2 pr.1 fuel) ∧
        p ≠ [] ∧ b.tree.exists_word (b.word p) = true ∧ b.word p = w
  | [], _, _, h => Or.inl h
  | pr :: prs, acc, w, h => by
    rcases solver_foldl_mem b fuel prs _ w h with h2 | ⟨q, hq, p, hp, hfacts⟩
    · rcases addWords_mem b _ _ _ h2 with h3 | ⟨p, hp, hfacts⟩
      · exact Or.inl h3
      · exact Or.inr ⟨pr, List.mem_cons_self _ _, p, List.mem_append.mp hp, hfacts⟩
    · exact Or.inr ⟨q, List.mem_cons_of_mem _ hq, p, hp, hfacts⟩

/-! ### Termination measure -/

/-- Weighted measure of the frames of a state, listed bottom-first, the
`i`-th frame (1-based) weighing `M ^ (C + 1 - i)` per unconsumed iterator
entry, plus one per frame. -/
def measAux (M C : Nat) : Nat → GenState → Nat
  | _, [] => 0
  | i, f :: fs => f.2.length * M ^ (C + 1 - i) + 1 + measAux M C (i + 1) fs

/-- The measure of a traversal state (frames are stored top-first). -/
def stateMeasure (M C : Nat) (s : GenState) : Nat :=
  measAux M C 1 s.reverse

/-- Appending a frame at the bottom-first end adds its weighted size. -/
lemma measAux_append (M C : Nat) (f : Fin 16 × List (Fin 16)) :
    ∀ (xs : GenState) (i : Nat),
      measAux M C i (xs ++ [f]) =
        measAux M C i xs + (f.2.length * M ^ (C + 1 - (i + xs.length)) + 1)
  | [], i => by
    simp [measAux]
  | g :: xs, i => by
    simp only [List.cons_append, measAux, List.length_cons, List.append_eq]
    rw [measAux_append M C f xs (i + 1)]
    have h3 : i + 1 + xs.length = i + (xs.length + 1) := by omega
    rw [h3]
    omega

/-- Unfolding the measure at the top frame. -/
lemma stateMeasure_cons (M C : Nat) (f : Fin 16 × List (Fin 16)) (rest : GenState) :
    stateMeasure M C (f :: rest) =
      stateMeasure M C rest +
        (f.2.length * M ^ (C + 1 - (rest.length + 1)) + 1) := by
  simp only [stateMeasure, List.reverse_cons]
  rw [measAux_append]
  have h1 : (1 : Nat) + rest.reverse.length = rest.length + 1 := by
    rw [List.length_reverse]
    omega
  rw [h1]

/-- Every loop iteration from a nonempty state strictly decreases the
measure, for any `M` exceeding every adjacency-list length by two. -/
lemma genStep_measure_lt (b : Board) (t : Fin 16) (M : Nat)
    (HM : ∀ cl, (b.adj cl).length + 2 ≤ M) (c : Fin 16) (rem : List (Fin 16))
    (rest : GenState) :
    stateMeasure M b.cutoff (genStep b t ((c, rem) :: rest)).2 <
      stateMeasure M b.cutoff ((c, rem) :: rest) := by
  have hM2 : 2 ≤ M := by
    have := HM c
    omega
  have hWpos : ∀ e : Nat, 1 ≤ M ^ e := fun e => Nat.one_le_pow e M (by omega)
  obtain ⟨hshape, -⟩ := genStep_shape b t c rem rest
  rcases hshape with h | ⟨child, rem2, hrem, heq, hlt⟩ |
      ⟨child, rem2, hrem, -, hlt, heq⟩
  · rw [h, stateMeasure_cons]
    omega
  · rw [heq]
    subst hrem
    rw [stateMeasure_cons, stateMeasure_cons]
    have hW : 1 ≤ M ^ (b.cutoff + 1 - (rest.length + 1)) := hWpos _
    have hmul : rem2.length * M ^ (b.cutoff + 1 - (rest.length + 1)) ≤
        (child :: rem2 : List (Fin 16)).length *
          M ^ (b.cutoff + 1 - (rest.length + 1)) := by
      apply Nat.mul_le_mul_right
      simp
    simp only [List.length_cons] at hmul ⊢
    have hsucc : (rem2.length + 1) * M ^ (b.cutoff + 1 - (rest.length + 1)) =
        rem2.length * M ^ (b.cutoff + 1 - (rest.length + 1)) +
          M ^ (b.cutoff + 1 - (rest.length + 1)) := by
      rw [Nat.succ_mul]
    omega
  · rw [heq]
    subst hrem
    rw [stateMeasure_cons, stateMeasure_cons, stateMeasure_cons]
    simp only [List.length_cons]
    -- the push branch has (old state length) < cutoff
    have hk : rest.length + 1 < b.cutoff := by
      simpa using hlt
    have hexp : b.cutoff + 1 - (rest.length + 1) =
        (b.cutoff + 1 - (rest.length + 1 + 1)) + 1 := by
      omega
    have hW2pos : 1 ≤ M ^ (b.cutoff + 1 - (rest.length + 1 + 1)) := hWpos _
    rw [hexp, pow_succ]
    generalize M ^ (b.cutoff + 1 - (rest.length + 1 + 1)) = W2 at hW2pos ⊢
    have hadj : (b.adj child).length + 2 ≤ M := HM child
    have hkey : (b.adj child).length * W2 + 1 < W2 * M := by
      nlinarith
    have hsucc : (rem2.length + 1) * (W2 * M) =
        rem2.length * (W2 * M) + W2 * M := Nat.succ_mul _ _
    omega

/-- From any state the loop reaches the empty stack in finitely many
iterations. -/
lemma runGen_completes (b : Board) (t : Fin 16) (M : Nat)
    (HM : ∀ cl, (b.adj cl).length + 2 ≤ M) (s : GenState) :
    ∃ n, (runGen b t n s).2 = true := by
  have key : ∀ (m : Nat) (s : GenState), stateMeasure M b.cutoff s ≤ m →
      ∃ n, (runGen b t n s).2 = true := by
    intro m
    induction m with
    | zero =>
      intro s hs
      cases s with
      | nil => exact ⟨0, rfl⟩
      | cons f rest =>
        rw [stateMeasure_cons] at hs
        omega
    | succ m ih =>
      intro s hs
      cases s with
      | nil => exact ⟨0, rfl⟩
      | cons f rest =>
        obtain ⟨c, rem⟩ := f
        obtain ⟨n, hn⟩ := ih (genStep b t ((c, rem) :: rest)).2 (by
          have := genStep_measure_lt b t M HM c rem rest
          omega)
        exact ⟨n + 1, hn⟩
  exact key _ s (le_refl _)

/-! ### Scorer lemmas -/

/-- For a word of length at least 3, the clamped table lookup hits and gives
the word's score. -/
lemma scoring_min_eq (w : List Char) (h : 3 ≤ w.length) :
    scoring (min 8 w.length) = some (wordScore w) := by
  have h5 : min 8 w.length = 3 ∨ min 8 w.length = 4 ∨ min 8 w.length = 5 ∨
      min 8 w.length = 6 ∨ min 8 w.length = 7 ∨ min 8 w.length = 8 := by
    omega
  unfold wordScore
  rcases h5 with h | h | h | h | h | h <;> rw [h] <;> rfl

/-- When every word is at least 3 letters long, the scoring loop returns the
accumulated total plus the clamped table sum. -/
lemma scorerAux_ok : ∀ (ws : List (List Char)) (total : Nat),
    (∀ w ∈ ws, 3 ≤ w.length) →
    scorerAux total ws = .ok (total + (ws.map wordScore).sum)
  | [], total, _ => by simp [scorerAux]
  | w :: ws, total, h => by
    have hw : 3 ≤ w.length := h w (List.mem_cons_self _ _)
    simp only [scorerAux, scoring_min_eq w hw]
    rw [if_neg (by omega)]
    rw [scorerAux_ok ws (total + wordScore w)
      (fun v hv => h v (List.mem_cons_of_mem _ hv))]
    simp only [List.map_cons, List.sum_cons]
    congr 1
    omega

/-- A word shorter than 3 letters anywhere in the collection makes the
scoring loop fail with the assertion message (the `KeyError` branch is
unreachable: it is guarded by the assertion and the clamp). -/
lemma scorerAux_error_short : ∀ (ws : List (List Char)) (total : Nat)
    (w : List Char), w ∈ ws → w.length < 3 →
    scorerAux total ws = .error "Words must be at least 3 letters."
  | [], _, _, hmem, _ => absurd hmem (List.not_mem_nil _)
  | v :: ws, total, w, hmem, hshort => by
    by_cases hv : v.length < 3
    · simp only [scorerAux]
      rw [if_pos hv]
    · have hv3 : 3 ≤ v.length := by omega
      simp only [scorerAux, scoring_min_eq v hv3]
      rw [if_neg (by omega)]
      have hw : w ∈ ws := by
        rcases List.mem_cons.mp hmem with h | h
        · subst h
          omega
        · exact h
      exact scorerAux_error_short ws (total + wordScore v) w hw hshort

/-! ### Claim theorems -/

/-- Claim C1: for every word `w` in the set returned by `solver`, the
word-membership query `WordTree.exists` returns true on `w`, and at least one
nonempty simple path of pairwise-adjacent cells on the board spells `w`. -/
theorem c1_solver_sound (b : Board) (fuel : Nat) (w : List Char)
    (hw : w ∈ b.solver fuel) :
    b.tree.exists_word w = true ∧
    ∃ p : List (Fin 16), p ≠ [] ∧ p.Nodup ∧
      List.Chain' (fun a d => d ∈ b.adj a) p ∧ b.word p = w := by
  unfold Board.solver at hw
  rcases solver_foldl_mem b fuel _ _ w hw with h | ⟨pr, _, p, hp, hne, hex, hword⟩
  · exact absurd h (List.not_mem_nil w)
  · have hfacts : p.Nodup ∧ List.Chain' (fun a d => d ∈ b.adj a) p := by
      rcases hp with hp | hp
      · have h := runGen_yield_facts b pr.2 fuel (initState b pr.1)
          (goodState_init b pr.1) p hp
        exact ⟨h.1.2.1, h.1.2.2⟩
      · have h := runGen_yield_facts b pr.1 fuel (initState b pr.2)
          (goodState_init b pr.2) p hp
        exact ⟨h.1.2.1, h.1.2.2⟩
    subst hword
    exact ⟨hex, p, hne, hfacts.1, hfacts.2, rfl⟩

/-- Witness for C1: on `boardLeaf` the solver returns the word `CAT`, which
passes the membership query and is spelled by a simple path. -/
theorem c1_witness :
    ("CAT".toList ∈ boardLeaf.solver 30) ∧
    (boardLeaf.tree.exists_word "CAT".toList = true ∧
     ∃ p : List (Fin 16), p ≠ [] ∧ p.Nodup ∧
       List.Chain' (fun a d => d ∈ boardLeaf.adj a) p ∧
       boardLeaf.word p = "CAT".toList) :=
  ⟨by decide, c1_solver_sound boardLeaf 30 _ (by decide)⟩

/-- Claim C2 is false as stated: on `boardCATS` (dictionary `{"CATS"}`,
faces `C A T D / ...`), the enumerator from cell 0 to cell 2 yields the path
`[0, 1, 2]` whose word `CAT` is not a complete dictionary word — neither in
the sense of the membership query `exists` nor as a member of the word list.
The enumerator only checks dictionary-prefix validity (its own docstring:
"This will be a valid path, but may not be a valid word"); the solver applies
the whole-word filter afterwards. -/
theorem c2_counterexample :
    (([0, 1, 2] : List (Fin 16)) ∈ pathsYielded boardCATS 0 2 50) ∧
    boardCATS.word [0, 1, 2] = "CAT".toList ∧
    boardCATS.tree.exists_word "CAT".toList = false ∧
    "CAT".toList ∉ wordsCATS ∧
    boardCATS.tree = buildTrie wordsCATS :=
  ⟨by decide, by decide, by decide, by decide, rfl⟩

/-- Claim C2, amended: every yielded path's word restricted to the first
`cutoff` cells is a valid trie walk (a dictionary prefix); in particular the
full word is a valid prefix whenever the path is at most `cutoff` cells long.
The full word need not be a complete dictionary word. -/
theorem c2_amended (b : Board) (source target : Fin 16) (fuel : Nat)
    (hface : ∀ cl, b.face cl ≠ [])
    (p : List (Fin 16)) (hp : p ∈ pathsYielded b source target fuel) :
    (b.tree.search_path (b.word (p.take b.cutoff))).isSome = true ∧
    (p.length ≤ b.cutoff → (b.tree.search_path (b.word p)).isSome = true) :=
  (runGen_yield_facts b target fuel (initState b source)
    (goodState_init b source) p hp).2 hface

/-- Witness for the amended C2 at the yielded path `[0, 1, 2]` of
`boardCATS`. -/
theorem c2_amended_witness :
    (∀ cl, boardCATS.face cl ≠ []) ∧
    ((boardCATS.tree.search_path
        (boardCATS.word (([0, 1, 2] : List (Fin 16)).take
          boardCATS.cutoff))).isSome = true ∧
     (([0, 1, 2] : List (Fin 16)).length ≤ boardCATS.cutoff →
       (boardCATS.tree.search_path
         (boardCATS.word [0, 1, 2])).isSome = true)) :=
  ⟨by decide, c2_amended boardCATS 0 2 50 (by decide) _ (by decide)⟩

/-- Claim C3 is false as stated: on `boardSnake` the enumerator from cell 0
to cell 12 yields the full 16-cell path `snakePath` (through the cutoff
branch, lines 168-174, which yields without re-checking the extended word),
and its whole word — a prefix of itself — is not a valid dictionary prefix:
`search_path` fails on it. -/
theorem c3_counterexample :
    snakePath ∈ pathsYielded boardSnake 0 12 300 ∧
    (∃ r, boardSnake.word snakePath ++ r = boardSnake.word snakePath) ∧
    (boardSnake.tree.search_path (boardSnake.word snakePath)).isNone = true :=
  ⟨by decide, ⟨[], by simp⟩, by decide⟩

/-- Claim C3, amended: every prefix of the word of a yielded path's first
`cutoff` cells is a valid dictionary prefix.  (Only the word of the final
cell of a full-length path escapes the check.) -/
theorem c3_amended (b : Board) (source target : Fin 16) (fuel : Nat)
    (hface : ∀ cl, b.face cl ≠ [])
    (p : List (Fin 16)) (hp : p ∈ pathsYielded b source target fuel)
    (q r : List Char) (hqr : q ++ r = b.word (p.take b.cutoff)) :
    (b.tree.search_path q).isSome = true := by
  have h := (runGen_yield_facts b target fuel (initState b source)
    (goodState_init b source) p hp).2 hface
  have h1 : (b.tree.search_path (q ++ r)).isSome = true := by
    rw [hqr]
    exact h.1
  exact search_path_isSome_of_append h1

/-- Witness for the amended C3: the prefix `CA` of the word of the yielded
path `[0, 1, 2]` on `boardCATS` is a valid dictionary prefix. -/
theorem c3_amended_witness :
    (∀ cl, boardCATS.face cl ≠ []) ∧
    ("CA".toList ++ "T".toList =
      boardCATS.word (([0, 1, 2] : List (Fin 16)).take boardCATS.cutoff)) ∧
    (boardCATS.tree.search_path "CA".toList).isSome = true :=
  ⟨by decide, by decide,
   c3_amended boardCATS 0 2 50 (by decide) [0, 1, 2] (by decide)
     "CA".toList "T".toList (by decide)⟩

/-- Claim C4: for every pair of cells and either enumeration direction, every
yielded path is simple — no cell appears twice and consecutive cells are
adjacency-graph neighbours. -/
theorem c4_simple_paths (b : Board) (source target : Fin 16) (fuel : Nat)
    (p : List (Fin 16)) (hp : p ∈ pathsYielded b source target fuel) :
    p.Nodup ∧ List.Chain' (fun a d => d ∈ b.adj a) p := by
  have h := runGen_yield_facts b target fuel (initState b source)
    (goodState_init b source) p hp
  exact ⟨h.1.2.1, h.1.2.2⟩

/-- Witness for C4 at the yielded path `[0, 1, 2]` of `boardCATS`. -/
theorem c4_witness :
    (([0, 1, 2] : List (Fin 16)) ∈ pathsYielded boardCATS 0 2 50) ∧
    (([0, 1, 2] : List (Fin 16)).Nodup ∧
      List.Chain' (fun a d => d ∈ boardCATS.adj a) [0, 1, 2]) :=
  ⟨by decide, c4_simple_paths boardCATS 0 2 50 _ (by decide)⟩

/-- Claim C5: `WordTree.exists` returns true exactly when the word has at
least 3 letters, the trie walk consumes it entirely, and the reached node is
a leaf (out-degree zero); and on any tree, any word shorter than 3 letters is
rejected. -/
theorem c5_is_word_iff (t : Trie) (w : List Char) :
    (t.exists_word w = true ↔
      3 ≤ w.length ∧ ∃ t2, t.search_path w = some t2 ∧ t2.outDegree = 0) ∧
    (w.length < 3 → t.exists_word w = false) := by
  constructor
  · constructor
    · intro h
      unfold Trie.exists_word at h
      by_cases hlen : w.length < 3
      · rw [if_pos hlen] at h
        exact absurd h (by simp)
      · rw [if_neg hlen] at h
        cases hs : t.search_path w with
        | none =>
          rw [hs] at h
          simp at h
        | some n =>
          rw [hs] at h
          simp only [beq_iff_eq] at h
          exact ⟨by omega, n, rfl, h⟩
    · rintro ⟨hlen, n, hs, hdeg⟩
      unfold Trie.exists_word
      rw [if_neg (by omega), hs]
      simp [hdeg]
  · intro hlen
    unfold Trie.exists_word
    rw [if_pos hlen]

/-- Witness for C5: on the tree of the dictionary `{"CAT"}`, the two-letter
word `AB` is rejected. -/
theorem c5_witness :
    (buildTrie ["CAT".toList]).exists_word "AB".toList = false :=
  (c5_is_word_iff (buildTrie ["CAT".toList]) "AB".toList).2 (by decide)

/-- Claim C6 is false as stated: passing the two-letter word `AB` to the
scoring operation does not produce a normal rejecting outcome — the `assert`
at board.py line 235 fires, embedded as `Except.error` (an `AssertionError`),
not as any `Except.ok` value. -/
theorem c6_counterexample :
    scorer [['A', 'B']] = .error "Words must be at least 3 letters." := rfl

/-- Claim C6, amended: a word shorter than 3 letters is rejected normally
(returns false) by the word-membership query, but the scoring operation
raises an `AssertionError` on it instead of returning a no-score outcome. -/
theorem c6_amended (t : Trie) (w : List Char) (ws : List (List Char))
    (hw : w.length < 3) :
    t.exists_word w = false ∧
    (w ∈ ws → scorer ws = .error "Words must be at least 3 letters.") := by
  refine ⟨?_, fun hmem => scorerAux_error_short ws 0 w hmem hw⟩
  unfold Trie.exists_word
  rw [if_pos hw]

/-- Witness for the amended C6 at the word `AB`. -/
theorem c6_amended_witness :
    (("AB".toList : List Char).length < 3) ∧
    ((buildTrie []).exists_word "AB".toList = false ∧
     ("AB".toList ∈ ["AB".toList] →
       scorer ["AB".toList] = .error "Words must be at least 3 letters.")) :=
  ⟨by decide, c6_amended _ _ _ (by decide)⟩

/-- Claim C7: on any collection of words each at least 3 letters long, the
scorer succeeds and returns the sum of the fixed length-to-points table with
lengths clamped to 8. -/
theorem c7_scorer (ws : List (List Char)) (h : ∀ w ∈ ws, 3 ≤ w.length) :
    scorer ws = .ok ((ws.map wordScore).sum) := by
  unfold scorer
  rw [scorerAux_ok ws 0 h]
  congr 1
  omega

/-- Witness for C7, including the claim's particular cases: the empty set
scores 0, `CAT` scores 1, an 8-letter word scores 11, and a 9-letter word
also scores 11. -/
theorem c7_witness :
    scorer [] = .ok 0 ∧
    scorer ["CAT".toList] = .ok 1 ∧
    scorer ["ABCDEFGH".toList] = .ok 11 ∧
    scorer ["ABCDEFGHI".toList] = .ok 11 :=
  ⟨c7_scorer [] (by decide), c7_scorer ["CAT".toList] (by decide),
   c7_scorer ["ABCDEFGH".toList] (by decide),
   c7_scorer ["ABCDEFGHI".toList] (by decide)⟩

/-- Claim C8: the path enumerator terminates — from the initial state the
stack empties within finitely many iterations (for any bound `M` exceeding
every adjacency-list length by 2, e.g. `M = 10` on the real board) — and at
any state whose partial path has reached the cutoff length
(`len(self.adjacency) - 1`, i.e. 15 on a 4x4 board) an iteration never
descends: it backtracks (pops to the remaining frames), and anything it
yields is the visited path extended by the target, which must be an
unvisited cell of the current frontier iterator. -/
theorem c8_termination_and_cutoff (b : Board) (M : Nat) (source target : Fin 16)
    (HM : ∀ cl, (b.adj cl).length + 2 ≤ M) :
    (∃ n, (runGen b target n (initState b source)).2 = true) ∧
    (∀ (c : Fin 16) (rem : List (Fin 16)) (rest : GenState),
       b.cutoff ≤ ((c, rem) :: rest : GenState).length →
       (genStep b target ((c, rem) :: rest)).2 = rest ∧
       ∀ p ∈ (genStep b target ((c, rem) :: rest)).1,
         p = visitedCells ((c, rem) :: rest) ++ [target] ∧
         target ∈ rem ∧ target ∉ visitedCells ((c, rem) :: rest)) := by
  refine ⟨runGen_completes b target M HM _, ?_⟩
  intro c rem rest hlen
  obtain ⟨hshape, hyld⟩ := genStep_shape b target c rem rest
  have htail : (genStep b target ((c, rem) :: rest)).2 = rest := by
    rcases hshape with h | ⟨child, rem2, hrem, heq, hlt⟩ |
        ⟨child, rem2, hrem, hnv, hlt, heq⟩
    · exact h
    · exact absurd hlt (by omega)
    · exact absurd hlt (by omega)
  refine ⟨htail, ?_⟩
  intro p hp
  obtain ⟨x, hpx, hxt, hxnv, hxrem, -⟩ := hyld p hp
  subst hxt
  exact ⟨hpx, hxrem, hxnv⟩

/-- Witness for C8 on `boardCATS` with `M = 10`, source 0, target 5. -/
theorem c8_witness :
    (∀ cl : Fin 16, (boardCATS.adj cl).length + 2 ≤ 10) ∧
    ((∃ n, (runGen boardCATS 5 n (initState boardCATS 0)).2 = true) ∧
     (∀ (c : Fin 16) (rem : List (Fin 16)) (rest : GenState),
        boardCATS.cutoff ≤ ((c, rem) :: rest : GenState).length →
        (genStep boardCATS 5 ((c, rem) :: rest)).2 = rest ∧
        ∀ p ∈ (genStep boardCATS 5 ((c, rem) :: rest)).1,
          p = visitedCells ((c, rem) :: rest) ++ [(5 : Fin 16)] ∧
          (5 : Fin 16) ∈ rem ∧
          (5 : Fin 16) ∉ visitedCells ((c, rem) :: rest))) :=
  ⟨by decide, c8_termination_and_cutoff boardCATS 10 0 5 (by decide)⟩

/-- Claim C9 names a code bug: on `boardCAT`, whose top row spells the
adjacent path `C-A-T` and whose dictionary is exactly `{"CAT"}`,
`_is_valid_path` accepts `CAT` and `CAT` is in the word list, yet
`attempt_word` returns `None` (no score) instead of the claimed score.  The
cause is `WordTree.exists` (words.py line 32) demanding `out_degree == 0` of
the reached node, while `networkx.prefix_tree` gives the terminal node of
every inserted word an out-edge to the `NIL` node, so no letter-reachable
node ever has out-degree zero and the membership query rejects every word of
its own dictionary — contradicting `attempt_word`'s docstring ("Check if
word is possible in board, and exists in word list"). -/
theorem c9_bug_eval :
    boardCAT.is_valid_path "CAT".toList = true ∧
    "CAT".toList ∈ wordsCAT ∧
    boardCAT.tree = buildTrie wordsCAT ∧
    boardCAT.attempt_word "CAT".toList = .ok none :=
  ⟨by decide, by decide, rfl, by rfl⟩

/-- Claim C10: `BoggleBoard.__init__` fails with `ValueError` exactly when
the `tiles` argument is neither `"classic"` nor `"new"`; the valid arguments
select the corresponding tile set, and the failure happens in the embedded
selection step, before dice, adjacency graph or word tree exist. -/
theorem c10_init (tiles : String) :
    ((∃ e, boggleBoardInit tiles = .error e) ↔
      tiles ≠ "classic" ∧ tiles ≠ "new") ∧
    (tiles = "classic" → boggleBoardInit tiles = .ok CLASSIC_TILES) ∧
    (tiles = "new" → boggleBoardInit tiles = .ok NEW_TILES) := by
  unfold boggleBoardInit
  by_cases h1 : tiles = "classic"
  · rw [if_pos h1]
    refine ⟨⟨?_, ?_⟩, fun _ => rfl, fun h2 => ?_⟩
    · rintro ⟨e, he⟩
      exact absurd he (by simp)
    · rintro ⟨ha, _⟩
      exact absurd h1 ha
    · rw [h1] at h2
      exact absurd h2 (by decide)
  · rw [if_neg h1]
    by_cases h2 : tiles = "new"
    · rw [if_pos h2]
      refine ⟨⟨?_, ?_⟩, fun hc => absurd hc h1, fun _ => rfl⟩
      · rintro ⟨e, he⟩
        exact absurd he (by simp)
      · rintro ⟨_, hb⟩
        exact absurd h2 hb
    · rw [if_neg h2]
      exact ⟨⟨fun _ => ⟨h1, h2⟩, fun _ => ⟨_, rfl⟩⟩,
        fun hc => absurd hc h1, fun hn => absurd hn h2⟩

/-- Witness for C10: an invalid tile-set name fails, `"classic"` succeeds
with the classic tiles. -/
theorem c10_witness :
    (∃ e, boggleBoardInit "junk" = .error e) ∧
    boggleBoardInit "classic" = .ok CLASSIC_TILES :=
  ⟨(c10_init "junk").1.mpr (by decide), (c10_init "classic").2.1 rfl⟩

end Pyboggle
